import Mathlib

/-!
# Verification of the fault-code lookup logic of `app.py`

Shallow embedding of the pure logic of `src/app.py` (a Streamlit fault-code
lookup app) and proofs about it.

Modelling conventions:
* Python `str` is modelled as Lean `String` (a list of `Char`); the character
  operations `str.upper` / `str.lower` / `str.strip` / `str.isdigit` are
  modelled on ASCII via `Char.toUpper` / `Char.toLower` / `Char.isWhitespace` /
  `Char.isDigit` (the fault-code data is ASCII).
* Python dicts are modelled as association lists in insertion order;
  `d.get(k)` is `List.lookup`, `d[k] = v` replaces in place when the key is
  present and appends otherwise, `del d[k]` removes the key, and iteration
  (`d.items()`, `d.keys()`) is traversal of the list.
* `re.findall(r"\bF\d+\b", text)` is modelled by the scanner `findF` below,
  which walks the character list left to right exactly as the regex engine
  does: a match starts at an `F` not preceded by a word character, greedily
  takes a nonempty run of digits, and requires the next character (if any) to
  be a non-word character; scanning resumes after each match.
* `None`-able results are `Option`; Python truthiness of a string is
  nonemptiness.
-/

/-! ## Character-level model -/

/-- A regex word character (`\w` over ASCII): alphanumeric or underscore. -/
def isWordChar (c : Char) : Bool := c.isAlphanum || c = '_'

/-! ## The `\bF\d+\b` scanner: model of `re.findall(r"\bF\d+\b", text)` -/

/-- Whether the head of the remaining input is a word character (a following
word character makes the trailing `\b` fail). -/
def isWordHead : List Char → Bool
  | [] => false
  | c :: _ => isWordChar c

/-- Left-to-right scanner for `re.findall(r"\bF\d+\b", text)`.  `w` records
whether the previously consumed character was a word character (at a match
position the regex engine requires a word boundary, i.e. `w = false` and the
next character a word character).  At an `F` with a boundary before it the
engine greedily takes the nonempty digit run; the match succeeds when the
character after the run (if any) is not a word character, and scanning resumes
after the run.  On failure the scan advances one character, as `re.findall`
does. -/
def findF (w : Bool) : List Char → List (List Char)
  | [] => []
  | c :: cs =>
    if !w && c = 'F' then
      let ds := cs.takeWhile Char.isDigit
      let rest := cs.dropWhile Char.isDigit
      if !ds.isEmpty && !(isWordHead rest) then
        ('F' :: ds) :: findF true rest
      else
        findF (isWordChar c) cs
    else
      findF (isWordChar c) cs
termination_by cs => cs.length
decreasing_by
  · exact Nat.lt_succ_of_le ((List.dropWhile_sublist _).length_le)
  · exact Nat.lt_succ_self _
  · exact Nat.lt_succ_self _

/-! ## Specification-side characterisation of the scanner -/

/-- The maximal runs of word characters of a string, in left-to-right order. -/
def wordRuns : List Char → List (List Char)
  | [] => []
  | c :: cs =>
    if isWordChar c then
      (c :: cs.takeWhile isWordChar) :: wordRuns (cs.dropWhile isWordChar)
    else
      wordRuns cs
termination_by l => l.length
decreasing_by
  · exact Nat.lt_succ_of_le ((List.dropWhile_sublist _).length_le)
  · exact Nat.lt_succ_self _

/-- A standalone fault-code token: `F` followed by one or more digits. -/
def isFToken (cl : List Char) : Bool :=
  match cl with
  | [] => false
  | f :: rest => f = 'F' && !rest.isEmpty && rest.all Char.isDigit

/-! ## String-level model of the Python primitives -/

/-- Model of Python `str.upper` (ASCII). -/
def pyUpper (s : String) : String := ⟨s.data.map Char.toUpper⟩

/-- Model of Python `str.lower` (ASCII). -/
def pyLower (s : String) : String := ⟨s.data.map Char.toLower⟩

/-- Strip leading and trailing whitespace from a character list. -/
def stripL (l : List Char) : List Char :=
  ((l.dropWhile Char.isWhitespace).reverse.dropWhile Char.isWhitespace).reverse

/-- Model of Python `str.strip()`. -/
def pyStrip (s : String) : String := ⟨stripL s.data⟩

/-- Model of Python `str.isdigit` (ASCII): nonempty and all digits. -/
def pyIsDigit (s : String) : Bool := !s.data.isEmpty && s.data.all Char.isDigit

/-- Model of Python `str.startswith`. -/
def pyStarts (s pre : String) : Bool := pre.data.isPrefixOf s.data

/-! ## `src/app.py` functions -/

/-- `parse_to_code_only` (app.py:194-199): pull the last `Fxx` token from a
string.  `if not text: return None`; then
`m = re.findall(r"\bF\d+\b", text.upper()); return m[-1] if m else None`. -/
def parse_to_code_only (text : Option String) : Option String :=
  match text with
  | none => none
  | some s =>
    if s.data.isEmpty then none
    else ((findF false (s.data.map Char.toUpper)).getLast?).map fun cl => (⟨cl⟩ : String)

/-- `normalize_user_input_code` (app.py:201-211).
`if not s: return None`; `s = s.strip().upper()`;
`code = parse_to_code_only(s)`; `if code: return code`;
`if s.isdigit(): return f"F{s}"`; `return s`.
(Python truthiness of the string `code` is nonemptiness.) -/
def normalize_user_input_code (s : String) : Option String :=
  if s.data.isEmpty then none
  else
    let t := pyUpper (pyStrip s)
    match parse_to_code_only (some t) with
    | some code =>
      if code.data.isEmpty then
        (if pyIsDigit t then some ⟨'F' :: t.data⟩ else some t)
      else some code
    | none =>
      if pyIsDigit t then some ⟨'F' :: t.data⟩ else some t

/-- A fault record, as built by `parse_rows_to_faults` (app.py:264-271 and
291-298): a Python dict with exactly these six string fields.  As a dict it
always has six keys, hence is always truthy. -/
structure Fault where
  equipment : String
  code : String
  fault_code_full : String
  description : String
  causes : String
  fixes : String
  deriving DecidableEq, Repr

/-- The per-equipment `{code → record}` dict, in insertion order. -/
abbrev CodeMap := List (String × Fault)

/-- The faults table `Dict[str, Dict[str, dict]]`, in insertion order. -/
abbrev FaultsTable := List (String × CodeMap)

/-- `find_fault` (app.py:315-325): search selected equipment first; then
others.  `primary = faults.get(selected_equip, {}).get(code)`; if `not
primary` (records are nonempty dicts, so: if `primary` is `None`), scan
`faults.items()` in order, skip `selected_equip`, and append `table[code]`
whenever `code in table`. -/
def find_fault (faults : FaultsTable) (selected_equip code : String) :
    Option Fault × List Fault :=
  let primary := List.lookup code ((List.lookup selected_equip faults).getD [])
  let alts :=
    if primary.isSome then []
    else
      faults.foldl
        (fun acc et =>
          if et.1 = selected_equip then acc
          else
            match List.lookup code et.2 with
            | some v => acc ++ [v]
            | none => acc)
        []
  (primary, alts)

/-- An input row of `parse_rows_to_faults`: a JSON object; `r.get(k)` of the
five relevant keys.  `none` models a missing key.  `fault_code_orig` is the
`"Fault Code"` key of the original schema. -/
structure Row where
  inverter_name : Option String
  fault_code_fmt : Option String
  fault_code_orig : Option String
  description : Option String
  possible_causes : Option String
  recommended_fixes : Option String
  deriving DecidableEq, Repr

/-- `EQUIP_NAME_MAP` (app.py:169-173): formatted JSON name -> UI label. -/
def EQUIP_NAME_MAP : List (String × String) :=
  [("AFE Inverter", "AFE"), ("DC-DC Converter", "DC-DC"), ("Grid Inverter", "Grid")]

/-- `UI_EQUIPMENTS` (app.py:168). -/
def UI_EQUIPMENTS : List String := ["AFE", "DC-DC", "Grid"]

/-- Python dict assignment `m[k] = v`: replace in place when the key exists,
append otherwise. -/
def dictInsert (m : CodeMap) (k : String) (v : Fault) : CodeMap :=
  if m.any (fun p => p.1 = k) then
    m.map (fun p => if p.1 = k then (k, v) else p)
  else m ++ [(k, v)]

/-- `faults[ui_equip][code] = entry` on the table (`ui_equip` is always one of
the three keys present since initialisation). -/
def updateTable (faults : FaultsTable) (e c : String) (v : Fault) : FaultsTable :=
  faults.map fun et => if et.1 = e then (et.1, dictInsert et.2 c v) else et

/-- The classification a loop iteration of `parse_rows_to_faults`
(app.py:254-299) makes of one row: the `(ui_equip, code, entry)` it assigns,
or `none` when the row is skipped (`continue` / no branch taken).
Mirrors the source control flow: the formatted schema is tried first
(`Inverter_Name` and `Fault_Code` both nonempty after strip); inside it a
missing `EQUIP_NAME_MAP` entry or missing code skips the row; otherwise the
original schema (`"Fault Code"` nonempty after strip) with the
`startswith`-based equipment choice. -/
def rowWrite (r : Row) : Option (String × String × Fault) :=
  let inv_name := pyStrip (r.inverter_name.getD "")
  let fcf := pyStrip (r.fault_code_fmt.getD "")
  if !inv_name.data.isEmpty && !fcf.data.isEmpty then
    match List.lookup inv_name EQUIP_NAME_MAP, parse_to_code_only (some fcf) with
    | some ui_equip, some code =>
      if code.data.isEmpty then none
      else
        some (ui_equip, code,
          { equipment := ui_equip, code := code, fault_code_full := fcf
            description := pyStrip (r.description.getD "")
            causes := pyStrip (r.possible_causes.getD "")
            fixes := pyStrip (r.recommended_fixes.getD "") })
    | _, _ => none
  else
    let fco := pyStrip (r.fault_code_orig.getD "")
    if !fco.data.isEmpty then
      match parse_to_code_only (some fco) with
      | none => none
      | some code =>
        if code.data.isEmpty then none
        else
          if pyStarts fco "AFE" then
            some ("AFE", code,
              { equipment := "AFE", code := code, fault_code_full := fco
                description := pyStrip (r.description.getD ""), causes := "", fixes := "" })
          else if pyStarts fco "DC-DC" then
            some ("DC-DC", code,
              { equipment := "DC-DC", code := code, fault_code_full := fco
                description := pyStrip (r.description.getD ""), causes := "", fixes := "" })
          else if pyStarts fco "Grid Inverter" then
            some ("Grid", code,
              { equipment := "Grid", code := code, fault_code_full := fco
                description := pyStrip (r.description.getD ""), causes := "", fixes := "" })
          else none
    else none

/-- One iteration of the `for r in rows` loop of `parse_rows_to_faults`:
either `faults[ui_equip][code] = entry` or no change. -/
def rowStep (faults : FaultsTable) (r : Row) : FaultsTable :=
  match rowWrite r with
  | none => faults
  | some (e, c, v) => updateTable faults e c v

/-- The initial table `{"AFE": {}, "DC-DC": {}, "Grid": {}}` (app.py:252). -/
def initFaults : FaultsTable := [("AFE", []), ("DC-DC", []), ("Grid", [])]

/-- `parse_rows_to_faults` (app.py:246-301). -/
def parse_rows_to_faults (rows : List Row) : FaultsTable :=
  rows.foldl rowStep initFaults

/-- `reset_state` (app.py:343-346) on a session-state dict with values of any
type: `for k in list(st.session_state.keys()): if k.startswith("fc_"): del
st.session_state[k]` — the key snapshot is taken before any deletion. -/
def reset_state (st : List (String × α)) : List (String × α) :=
  (st.map Prod.fst).foldl
    (fun acc k => if pyStarts k "fc_" then acc.filter (fun kv => !(kv.1 = k : Bool)) else acc)
    st

/-- Outcome of the `if submitted:` handler (app.py:377-397). -/
inductive SearchOutcome where
  | errEmpty
  | found (f : Fault)
  | altPrompt (alts : List Fault)
  | notFound
  deriving DecidableEq, Repr

/-- The `if submitted:` handler (app.py:377-397): normalize the raw input;
`if not code:` report that a fault code must be entered; otherwise look up and
branch on `primary` / `alts`. -/
def submitted (faults : FaultsTable) (selected raw : String) : SearchOutcome :=
  match normalize_user_input_code raw with
  | none => .errEmpty
  | some code =>
    if code.data.isEmpty then .errEmpty
    else
      match find_fault faults selected code with
      | (some p, _) => .found p
      | (none, alts) => if alts.isEmpty then .notFound else .altPrompt alts

/-! ## "Did you mean" suggestions (modelled from the spec) -/

/-- Does `needle` occur as a contiguous segment of `hay`? -/
def hasSegment (needle : List Char) : List Char → Bool
  | [] => needle.isEmpty
  | c :: t => needle.isPrefixOf (c :: t) || hasSegment needle t

/-- The digit characters of a code, its bare numeric fault-number token. -/
def numTok (s : String) : List Char := s.data.filter Char.isDigit

/-- Modelled from the spec: `src/app.py` contains no "did you mean" suggestion
scan (its submitted handler stops after the alternate-category lookup and
reports "No results found"), so this routine is modelled from the spec
sentence: "perform a substring/prefix scan over the candidate pool (optionally
restricted by selected category) to produce up to 10 'did you mean'
suggestions, falling back to matching on the bare numeric fault-number token
if no textual suggestions are found", with suggestions capped at 10 and
excluding exact matches already returned. -/
def suggest_codes (faults : FaultsTable) (restrict : Option String) (query : String) :
    List String :=
  let pool : List String :=
    match restrict with
    | some e => ((List.lookup e faults).getD []).map Prod.fst
    | none => faults.foldl (fun acc et => acc ++ et.2.map Prod.fst) []
  let textual :=
    (pool.filter fun c =>
      !(c = query : Bool) && (hasSegment query.data c.data || query.data.isPrefixOf c.data)).take 10
  if textual.isEmpty then
    (pool.filter fun c => !(c = query : Bool) && numTok c = numTok query).take 10
  else textual

/-! ## Sample data for witnesses -/

/-- A sample AFE record. -/
def sampleFault : Fault :=
  { equipment := "AFE", code := "F1", fault_code_full := "AFE F1"
    description := "overvoltage", causes := "surge", fixes := "reset" }

/-- A sample DC-DC record with the same code. -/
def sampleFaultDC : Fault :=
  { equipment := "DC-DC", code := "F1", fault_code_full := "DC-DC F1"
    description := "overvoltage", causes := "surge", fixes := "reset" }

/-- A sample formatted-schema row. -/
def sampleRow : Row :=
  { inverter_name := some "AFE Inverter", fault_code_fmt := some "F7"
    fault_code_orig := none, description := some "overheat"
    possible_causes := some "fan", recommended_fixes := some "clean" }

/-- The record that `parse_rows_to_faults` builds from `sampleRow`. -/
def sampleEntry7 : Fault :=
  { equipment := "AFE", code := "F7", fault_code_full := "F7"
    description := "overheat", causes := "fan", fixes := "clean" }

/-! ## Character lemmas -/

theorem char_eq_iff_toNat (a b : Char) : a = b ↔ a.toNat = b.toNat := by
  constructor
  · intro h; rw [h]
  · intro h
    have h2 := congrArg Char.ofNat h
    rwa [Char.ofNat_toNat, Char.ofNat_toNat] at h2

theorem char_toNat_ofNat (n : Nat) (h : n < 55296) : (Char.ofNat n).toNat = n := by
  have hv : n.isValidChar := Or.inl h
  simp [Char.ofNat, hv, Char.ofNatAux, Char.toNat, UInt32.toNat]

theorem isDigit_iff (c : Char) : c.isDigit = true ↔ 48 ≤ c.toNat ∧ c.toNat ≤ 57 := by
  simp [Char.isDigit, Char.toNat, UInt32.le_def, BitVec.le_def, UInt32.toNat]

theorem isLower_iff (c : Char) : c.isLower = true ↔ 97 ≤ c.toNat ∧ c.toNat ≤ 122 := by
  simp [Char.isLower, Char.toNat, UInt32.le_def, BitVec.le_def, UInt32.toNat]

theorem isUpper_iff (c : Char) : c.isUpper = true ↔ 65 ≤ c.toNat ∧ c.toNat ≤ 90 := by
  simp [Char.isUpper, Char.toNat, UInt32.le_def, BitVec.le_def, UInt32.toNat]

theorem isWhitespace_iff (c : Char) : c.isWhitespace = true ↔
    c.toNat = 32 ∨ c.toNat = 9 ∨ c.toNat = 13 ∨ c.toNat = 10 := by
  simp [Char.isWhitespace, char_eq_iff_toNat]
  tauto

theorem isWordChar_iff (c : Char) : isWordChar c = true ↔
    (48 ≤ c.toNat ∧ c.toNat ≤ 57) ∨ (65 ≤ c.toNat ∧ c.toNat ≤ 90) ∨
    (97 ≤ c.toNat ∧ c.toNat ≤ 122) ∨ c.toNat = 95 := by
  simp [isWordChar, Char.isAlphanum, Char.isAlpha, isDigit_iff, isLower_iff,
    isUpper_iff, char_eq_iff_toNat]
  constructor
  · intro h; omega
  · intro h; omega

theorem toNat_toUpper (c : Char) :
    c.toUpper.toNat = if 97 ≤ c.toNat ∧ c.toNat ≤ 122 then c.toNat - 32 else c.toNat := by
  rw [Char.toUpper]
  split
  · next h => rw [char_toNat_ofNat _ (by omega)]
  · rfl

theorem toNat_toLower (c : Char) :
    c.toLower.toNat = if 65 ≤ c.toNat ∧ c.toNat ≤ 90 then c.toNat + 32 else c.toNat := by
  rw [Char.toLower]
  split
  · next h => rw [char_toNat_ofNat _ (by omega)]
  · rfl

theorem toUpper_toUpper (c : Char) : c.toUpper.toUpper = c.toUpper := by
  rw [char_eq_iff_toNat]
  simp only [toNat_toUpper]
  split_ifs <;> omega

theorem toUpper_toLower (c : Char) : c.toLower.toUpper = c.toUpper := by
  rw [char_eq_iff_toNat]
  simp only [toNat_toUpper, toNat_toLower]
  split_ifs <;> omega

theorem isWhitespace_toUpper (c : Char) : c.toUpper.isWhitespace = c.isWhitespace := by
  rw [Bool.eq_iff_iff, isWhitespace_iff, isWhitespace_iff, toNat_toUpper]
  split_ifs <;> omega

theorem isWhitespace_toLower (c : Char) : c.toLower.isWhitespace = c.isWhitespace := by
  rw [Bool.eq_iff_iff, isWhitespace_iff, isWhitespace_iff, toNat_toLower]
  split_ifs <;> omega

theorem isDigit_toUpper (c : Char) : c.toUpper.isDigit = c.isDigit := by
  rw [Bool.eq_iff_iff, isDigit_iff, isDigit_iff, toNat_toUpper]
  split_ifs <;> omega

theorem toUpper_of_isDigit (c : Char) (h : c.isDigit = true) : c.toUpper = c := by
  rw [isDigit_iff] at h
  rw [char_eq_iff_toNat, toNat_toUpper]
  split_ifs <;> omega

theorem not_isWhitespace_of_isDigit (c : Char) (h : c.isDigit = true) :
    c.isWhitespace = false := by
  rw [isDigit_iff] at h
  rw [Bool.eq_false_iff, Ne, isWhitespace_iff]
  omega

theorem isWordChar_of_isDigit (c : Char) (h : c.isDigit = true) : isWordChar c = true := by
  rw [isDigit_iff] at h
  rw [isWordChar_iff]
  omega


/-! ## List helpers -/

theorem dropWhile_len_le (p : α → Bool) (l : List α) : (l.dropWhile p).length ≤ l.length := by
  induction l with
  | nil => simp
  | cons a l ih =>
    by_cases h : p a
    · simp [List.dropWhile, h]; omega
    · simp [List.dropWhile, h]

theorem dropWhile_head_false (p : α → Bool) (l : List α) (c : α) (cs : List α)
    (h : l.dropWhile p = c :: cs) : p c = false := by
  induction l with
  | nil => simp at h
  | cons a l ih =>
    by_cases ha : p a
    · rw [List.dropWhile_cons_of_pos ha] at h
      exact ih h
    · rw [List.dropWhile_cons_of_neg ha] at h
      cases h
      exact Bool.eq_false_iff.mpr ha

theorem dropWhile_eq_self_of_head (p : α → Bool) (l : List α)
    (h : ∀ c, l.head? = some c → p c = false) : l.dropWhile p = l := by
  cases l with
  | nil => rfl
  | cons a l => rw [List.dropWhile_cons_of_neg (by simp [h a])]

theorem takeWhile_append_of_all (p : α → Bool) (l₁ l₂ : List α) (h : ∀ c ∈ l₁, p c = true) :
    (l₁ ++ l₂).takeWhile p = l₁ ++ l₂.takeWhile p := by
  induction l₁ with
  | nil => simp
  | cons a l ih =>
    rw [List.cons_append, List.takeWhile_cons_of_pos (h a (by simp)), ih]
    · rfl
    · intro c hc; exact h c (by simp [hc])

theorem dropWhile_append_of_all (p : α → Bool) (l₁ l₂ : List α) (h : ∀ c ∈ l₁, p c = true) :
    (l₁ ++ l₂).dropWhile p = l₂.dropWhile p := by
  induction l₁ with
  | nil => simp
  | cons a l ih =>
    rw [List.cons_append, List.dropWhile_cons_of_pos (h a (by simp)), ih]
    intro c hc; exact h c (by simp [hc])

theorem getLast?_dropWhile (p : α → Bool) (l : List α) (h : l.dropWhile p ≠ []) :
    (l.dropWhile p).getLast? = l.getLast? := by
  induction l with
  | nil => simp at h
  | cons a l ih =>
    by_cases ha : p a
    · rw [List.dropWhile_cons_of_pos ha] at h ⊢
      rw [ih h]
      have hl : l ≠ [] := by
        intro he; rw [he] at h; simp at h
      cases l with
      | nil => simp at hl
      | cons b m => simp [List.getLast?_cons_cons]
    · rw [List.dropWhile_cons_of_neg ha]

/-! ## Scanner/word-run equivalence -/

theorem isWordChar_F : isWordChar 'F' = true := by decide

theorem findF_nil (w : Bool) : findF w [] = [] := by
  simp [findF]

theorem findF_skip (c : Char) (cs : List Char) (h : isWordChar c = false) :
    findF false (c :: cs) = findF false cs := by
  have hF : ¬(c = 'F') := by
    intro he; rw [he, isWordChar_F] at h; cases h
  rw [findF]
  simp [hF, h]

theorem findF_true (cs : List Char) :
    findF true cs = findF false (cs.dropWhile isWordChar) := by
  induction cs with
  | nil => simp [findF]
  | cons c cs ih =>
    have hstep : findF true (c :: cs) = findF (isWordChar c) cs := by
      rw [findF]; simp
    by_cases hw : isWordChar c = true
    · rw [hstep, hw, List.dropWhile_cons_of_pos hw, ih]
    · have hw2 : isWordChar c = false := by revert hw; cases isWordChar c <;> simp
      rw [hstep, hw2, List.dropWhile_cons_of_neg (by simp [hw2])]
      exact (findF_skip c cs hw2).symm

theorem dropWhile_eq_self_of_isWordHead (cs : List Char) (h : isWordHead cs = false) :
    cs.dropWhile isWordChar = cs := by
  apply dropWhile_eq_self_of_head
  intro c hc
  cases cs with
  | nil => simp at hc
  | cons a l => cases hc; exact h

theorem takeWhile_word_eq_digit (cs : List Char)
    (h : isWordHead (cs.dropWhile Char.isDigit) = false) :
    cs.takeWhile isWordChar = cs.takeWhile Char.isDigit ∧
      cs.dropWhile isWordChar = cs.dropWhile Char.isDigit := by
  induction cs with
  | nil => simp
  | cons c cs ih =>
    by_cases hd : c.isDigit = true
    · have hw := isWordChar_of_isDigit c hd
      rw [List.dropWhile_cons_of_pos hd] at h
      obtain ⟨h1, h2⟩ := ih h
      rw [List.takeWhile_cons_of_pos hw, List.takeWhile_cons_of_pos hd,
        List.dropWhile_cons_of_pos hw, List.dropWhile_cons_of_pos hd, h1, h2]
      exact ⟨rfl, rfl⟩
    · have hd2 : c.isDigit = false := by revert hd; cases c.isDigit <;> simp
      rw [List.dropWhile_cons_of_neg (by simp [hd2])] at h
      have hw : isWordChar c = false := h
      rw [List.takeWhile_cons_of_neg (by simp [hw]),
        List.takeWhile_cons_of_neg (by simp [hd2]),
        List.dropWhile_cons_of_neg (by simp [hw]),
        List.dropWhile_cons_of_neg (by simp [hd2])]
      exact ⟨rfl, rfl⟩

theorem isFToken_cons (c : Char) (l : List Char) :
    isFToken (c :: l) = ((c = 'F' : Bool) && !l.isEmpty && l.all Char.isDigit) := by
  rfl

theorem takeWhile_word_decomp (cs : List Char) :
    cs.takeWhile isWordChar =
      cs.takeWhile Char.isDigit ++ (cs.dropWhile Char.isDigit).takeWhile isWordChar := by
  conv_lhs => rw [← List.takeWhile_append_dropWhile Char.isDigit cs]
  rw [takeWhile_append_of_all]
  intro c hc
  exact isWordChar_of_isDigit c (List.mem_takeWhile_imp hc)

theorem isFToken_noMatch (cs : List Char)
    (h : (cs.takeWhile Char.isDigit).isEmpty = true ∨
      isWordHead (cs.dropWhile Char.isDigit) = true) :
    isFToken ('F' :: cs.takeWhile isWordChar) = false := by
  rcases h with h | h
  · cases cs with
    | nil => decide
    | cons c' cs' =>
      have hd : c'.isDigit = false := by
        cases hdd : c'.isDigit
        · rfl
        · rw [List.takeWhile_cons_of_pos hdd] at h; simp at h
      by_cases hw : isWordChar c' = true
      · rw [List.takeWhile_cons_of_pos hw, isFToken_cons]
        simp [hd]
      · rw [List.takeWhile_cons_of_neg (by simp [hw])]
        decide
  · cases hrest : cs.dropWhile Char.isDigit with
    | nil => rw [hrest] at h; simp [isWordHead] at h
    | cons d rest' =>
      rw [hrest] at h
      have hw : isWordChar d = true := h
      have hd : d.isDigit = false := dropWhile_head_false _ _ _ _ hrest
      rw [takeWhile_word_decomp, hrest, List.takeWhile_cons_of_pos hw, isFToken_cons]
      simp [hd]

theorem wordRuns_cons_pos (c : Char) (cs : List Char) (h : isWordChar c = true) :
    wordRuns (c :: cs) =
      (c :: cs.takeWhile isWordChar) :: wordRuns (cs.dropWhile isWordChar) := by
  rw [wordRuns]; simp [h]

theorem wordRuns_cons_neg (c : Char) (cs : List Char) (h : isWordChar c = false) :
    wordRuns (c :: cs) = wordRuns cs := by
  rw [wordRuns]; simp [h]

theorem findF_eq_aux (n : Nat) :
    ∀ cs : List Char, cs.length ≤ n →
      findF false cs = (wordRuns cs).filter isFToken := by
  induction n with
  | zero =>
    intro cs hlen
    have h0 : cs = [] := List.length_eq_zero.mp (Nat.le_zero.mp hlen)
    subst h0
    simp [findF, wordRuns]
  | succ n ih =>
    intro cs hlen
    cases cs with
    | nil => simp [findF, wordRuns]
    | cons c cs =>
      simp only [List.length_cons, Nat.succ_le_succ_iff] at hlen
      by_cases hw : isWordChar c = true
      · by_cases hF : c = 'F'
        · subst hF
          by_cases hm : (!(cs.takeWhile Char.isDigit).isEmpty &&
              !(isWordHead (cs.dropWhile Char.isDigit))) = true
          · -- a match: emit the token and resume after the digit run
            have hmatch : findF false ('F' :: cs) =
                ('F' :: cs.takeWhile Char.isDigit) ::
                  findF true (cs.dropWhile Char.isDigit) := by
              rw [findF]; simp [hm]
            have hm2 : (cs.takeWhile Char.isDigit).isEmpty = false ∧
                isWordHead (cs.dropWhile Char.isDigit) = false := by
              revert hm
              cases (cs.takeWhile Char.isDigit).isEmpty <;>
                cases isWordHead (cs.dropWhile Char.isDigit) <;> simp
            obtain ⟨hne, hhead⟩ := hm2
            obtain ⟨htw, hdw⟩ := takeWhile_word_eq_digit cs hhead
            have hrest : (cs.dropWhile Char.isDigit).dropWhile isWordChar =
                cs.dropWhile Char.isDigit := dropWhile_eq_self_of_isWordHead _ hhead
            have hlen2 : (cs.dropWhile Char.isDigit).length ≤ n :=
              Nat.le_trans (dropWhile_len_le _ _) hlen
            have hall : (cs.takeWhile Char.isDigit).all Char.isDigit = true :=
              List.all_eq_true.mpr (fun x hx => List.mem_takeWhile_imp hx)
            have htok : isFToken ('F' :: cs.takeWhile Char.isDigit) = true := by
              rw [isFToken_cons]; simp [hne, hall]
            rw [hmatch, findF_true, hrest, ih _ hlen2,
              wordRuns_cons_pos _ _ isWordChar_F, htw, hdw,
              List.filter_cons_of_pos htok]
          · -- boundary or digit-run failure: no match at this `F`
            have hnomatch : findF false ('F' :: cs) = findF true cs := by
              rw [findF]; simp [hm, isWordChar_F]
            have hm2 : (cs.takeWhile Char.isDigit).isEmpty = true ∨
                isWordHead (cs.dropWhile Char.isDigit) = true := by
              revert hm
              cases (cs.takeWhile Char.isDigit).isEmpty <;>
                cases isWordHead (cs.dropWhile Char.isDigit) <;> simp
            have htok := isFToken_noMatch cs hm2
            have hlen2 : (cs.dropWhile isWordChar).length ≤ n :=
              Nat.le_trans (dropWhile_len_le _ _) hlen
            rw [hnomatch, findF_true, ih _ hlen2, wordRuns_cons_pos _ _ isWordChar_F,
              List.filter_cons_of_neg (by simp [htok])]
        · -- a word character other than `F`: its run cannot match
          have hstep : findF false (c :: cs) = findF (isWordChar c) cs := by
            rw [findF]; simp [hF]
          have htok : isFToken (c :: cs.takeWhile isWordChar) = false := by
            rw [isFToken_cons]; simp [hF]
          have hlen2 : (cs.dropWhile isWordChar).length ≤ n :=
            Nat.le_trans (dropWhile_len_le _ _) hlen
          rw [hstep, hw, findF_true, ih _ hlen2, wordRuns_cons_pos _ _ hw,
            List.filter_cons_of_neg (by simp [htok])]
      · have hw2 : isWordChar c = false := by revert hw; cases isWordChar c <;> simp
        rw [findF_skip c cs hw2, wordRuns_cons_neg c cs hw2]
        exact ih cs hlen

/-- `re.findall(r"\bF\d+\b", ·)` returns exactly the maximal word runs of shape
`F` + digits, in left-to-right order. -/
theorem findF_eq (cs : List Char) : findF false cs = (wordRuns cs).filter isFToken :=
  findF_eq_aux cs.length cs (Nat.le_refl _)


/-! ## `parse_to_code_only` -/

theorem parse_some_eq (s : String) :
    parse_to_code_only (some s) =
      (((wordRuns (s.data.map Char.toUpper)).filter isFToken).getLast?).map
        (fun cl => (⟨cl⟩ : String)) := by
  rw [parse_to_code_only]
  by_cases he : s.data.isEmpty = true
  · rw [if_pos he]
    have h0 : s.data = [] := by
      revert he; cases s.data <;> simp
    rw [h0]
    simp [wordRuns]
  · rw [if_neg he, findF_eq]

theorem parse_isFToken (s u : String) (h : parse_to_code_only (some s) = some u) :
    isFToken u.data = true := by
  rw [parse_some_eq] at h
  cases hg : ((wordRuns (s.data.map Char.toUpper)).filter isFToken).getLast? with
  | none => rw [hg] at h; simp at h
  | some cl =>
    rw [hg] at h
    have h2 : (⟨cl⟩ : String) = u := by simpa using h
    have hmem := List.mem_of_mem_getLast? hg
    have htok := (List.mem_filter.mp hmem).2
    have h3 : u.data = cl := by rw [← h2]
    rw [h3]
    exact htok

/-! ## Strip lemmas -/

theorem strip_head_not_ws (l : List Char) (c : Char) (h : (stripL l).head? = some c) :
    c.isWhitespace = false := by
  rw [stripL, List.head?_reverse] at h
  cases hd : (l.dropWhile Char.isWhitespace).reverse.dropWhile Char.isWhitespace with
  | nil => rw [hd] at h; simp at h
  | cons b bs =>
    rw [hd] at h
    have hb : b.isWhitespace = false := dropWhile_head_false _ _ _ _ hd
    have hne : (l.dropWhile Char.isWhitespace).reverse.dropWhile Char.isWhitespace ≠ [] := by
      rw [hd]; simp
    have hlast := getLast?_dropWhile Char.isWhitespace
      (l.dropWhile Char.isWhitespace).reverse hne
    rw [hd, List.getLast?_reverse] at hlast
    cases hh : (l.dropWhile Char.isWhitespace).head? with
    | none => rw [hh] at hlast; rw [hlast] at h; simp at h
    | some a =>
      rw [hh] at hlast
      rw [hlast] at h
      cases h
      cases hdd : l.dropWhile Char.isWhitespace with
      | nil => rw [hdd] at hh; simp at hh
      | cons x xs =>
        rw [hdd] at hh
        cases hh
        exact dropWhile_head_false _ _ _ _ hdd

theorem strip_last_not_ws (l : List Char) (c : Char) (h : (stripL l).getLast? = some c) :
    c.isWhitespace = false := by
  rw [stripL, List.getLast?_reverse] at h
  cases hd : (l.dropWhile Char.isWhitespace).reverse.dropWhile Char.isWhitespace with
  | nil => rw [hd] at h; simp at h
  | cons b bs =>
    rw [hd] at h
    cases h
    exact dropWhile_head_false _ _ _ _ hd

theorem strip_eq_self_of_ends (l : List Char)
    (hh : ∀ c, l.head? = some c → c.isWhitespace = false)
    (hl : ∀ c, l.getLast? = some c → c.isWhitespace = false) :
    stripL l = l := by
  rw [stripL, dropWhile_eq_self_of_head _ _ hh]
  rw [dropWhile_eq_self_of_head]
  · exact List.reverse_reverse l
  · intro c hc
    rw [List.head?_reverse] at hc
    exact hl c hc

theorem stripL_idem (l : List Char) : stripL (stripL l) = stripL l :=
  strip_eq_self_of_ends _ (strip_head_not_ws l) (strip_last_not_ws l)

theorem stripL_of_all_not_ws (l : List Char) (h : ∀ c ∈ l, c.isWhitespace = false) :
    stripL l = l := by
  apply strip_eq_self_of_ends
  · intro c hc
    exact h c (List.mem_of_mem_head? hc)
  · intro c hc
    exact h c (List.mem_of_mem_getLast? hc)

theorem stripL_map (f : Char → Char) (hf : ∀ c, (f c).isWhitespace = c.isWhitespace)
    (l : List Char) : stripL (l.map f) = (stripL l).map f := by
  have hfc : (Char.isWhitespace ∘ f) = Char.isWhitespace := funext hf
  simp only [stripL, List.dropWhile_map, hfc, ← List.map_reverse]

/-! ## Token and normalization lemmas -/

theorem wordRuns_all_word (l : List Char) (hne : l ≠ [])
    (h : ∀ c ∈ l, isWordChar c = true) : wordRuns l = [l] := by
  cases l with
  | nil => cases hne rfl
  | cons c cs =>
    rw [wordRuns_cons_pos c cs (h c (by simp))]
    have ht : cs.takeWhile isWordChar = cs := by
      have h2 := takeWhile_append_of_all isWordChar cs []
        (fun x hx => h x (by simp [hx]))
      simpa using h2
    have hd : cs.dropWhile isWordChar = [] := by
      have h2 := dropWhile_append_of_all isWordChar cs []
        (fun x hx => h x (by simp [hx]))
      simpa using h2
    rw [ht, hd]
    simp [wordRuns]

theorem isFToken_decomp (u : List Char) (h : isFToken u = true) :
    ∃ rest, u = 'F' :: rest ∧ rest ≠ [] ∧ (∀ c ∈ rest, c.isDigit = true) := by
  cases u with
  | nil => simp [isFToken] at h
  | cons f rest =>
    rw [isFToken_cons, Bool.and_eq_true, Bool.and_eq_true] at h
    obtain ⟨⟨hf, hne⟩, hall⟩ := h
    refine ⟨rest, ?_, ?_, ?_⟩
    · rw [of_decide_eq_true hf]
    · intro he
      rw [he] at hne
      simp at hne
    · exact fun c hc => List.all_eq_true.mp hall c hc

theorem map_toUpper_of_FToken (u : List Char) (h : isFToken u = true) :
    u.map Char.toUpper = u := by
  obtain ⟨rest, hu, _, hall⟩ := isFToken_decomp u h
  rw [hu, List.map_cons]
  have h1 : Char.toUpper 'F' = 'F' := by decide
  have h2 : rest.map Char.toUpper = rest := by
    have h3 : rest.map Char.toUpper = rest.map id :=
      List.map_congr_left (fun c hc => by rw [toUpper_of_isDigit c (hall c hc), id])
    rw [h3, List.map_id]
  rw [h1, h2]

theorem isFToken_all_word (u : List Char) (h : isFToken u = true) :
    ∀ c ∈ u, isWordChar c = true := by
  obtain ⟨rest, hu, _, hall⟩ := isFToken_decomp u h
  intro c hc
  rw [hu] at hc
  rcases List.mem_cons.mp hc with hc | hc
  · rw [hc]; exact isWordChar_F
  · exact isWordChar_of_isDigit c (hall c hc)

theorem isFToken_no_ws (u : List Char) (h : isFToken u = true) :
    ∀ c ∈ u, c.isWhitespace = false := by
  obtain ⟨rest, hu, _, hall⟩ := isFToken_decomp u h
  intro c hc
  rw [hu] at hc
  rcases List.mem_cons.mp hc with hc | hc
  · rw [hc]; decide
  · exact not_isWhitespace_of_isDigit c (hall c hc)

theorem pyStrip_pyUpper (s : String) : pyStrip (pyUpper s) = pyUpper (pyStrip s) := by
  rw [pyStrip, pyUpper, pyStrip, pyUpper]
  exact congrArg String.mk (stripL_map Char.toUpper isWhitespace_toUpper s.data)

theorem pyStrip_pyLower (s : String) : pyStrip (pyLower s) = pyLower (pyStrip s) := by
  rw [pyStrip, pyLower, pyStrip, pyLower]
  exact congrArg String.mk (stripL_map Char.toLower isWhitespace_toLower s.data)

theorem pyStrip_pyStrip (s : String) : pyStrip (pyStrip s) = pyStrip s := by
  rw [pyStrip, pyStrip]
  exact congrArg String.mk (stripL_idem s.data)

theorem pyUpper_pyUpper (s : String) : pyUpper (pyUpper s) = pyUpper s := by
  rw [pyUpper, pyUpper, List.map_map]
  exact congrArg String.mk (List.map_congr_left (fun c _ => toUpper_toUpper c))

theorem pyUpper_pyLower (s : String) : pyUpper (pyLower s) = pyUpper s := by
  rw [pyUpper, pyUpper, pyLower, List.map_map]
  exact congrArg String.mk (List.map_congr_left (fun c _ => toUpper_toLower c))

theorem parse_FToken (u : String) (h : isFToken u.data = true) :
    parse_to_code_only (some u) = some u := by
  have hne : u.data ≠ [] := by
    intro he; rw [he] at h; simp [isFToken] at h
  rw [parse_some_eq, map_toUpper_of_FToken u.data h,
    wordRuns_all_word u.data hne (isFToken_all_word u.data h),
    List.filter_cons_of_pos h]
  simp

theorem normalize_F_token (u : String) (h : isFToken u.data = true) :
    normalize_user_input_code u = some u := by
  have hstrip : pyStrip u = u := by
    rw [pyStrip, stripL_of_all_not_ws u.data (isFToken_no_ws u.data h)]
  have hupper : pyUpper u = u := by
    rw [pyUpper, map_toUpper_of_FToken u.data h]
  have hne2 : u.data.isEmpty = false := by
    obtain ⟨rest, hu, _, _⟩ := isFToken_decomp u.data h
    rw [hu]; rfl
  simp only [normalize_user_input_code, hstrip, hupper, parse_FToken u h, hne2]
  simp

/-! ## Claim theorems: parsing and normalization -/

/-- **C9**: `parse_to_code_only` returns the last (in left-to-right order)
standalone token of the form `F` followed by digits — a maximal word-character
run of that shape, after uppercasing — and returns `none` for every input with
no such token, including `None` and the empty string; an input containing `F1`
and then `F2` yields `F2`. -/
theorem parse_to_code_only_returns_last_token :
    parse_to_code_only none = none ∧
    parse_to_code_only (some "") = none ∧
    (∀ s : String, parse_to_code_only (some s) =
      (((wordRuns (s.data.map Char.toUpper)).filter isFToken).getLast?).map
        (fun cl => (⟨cl⟩ : String))) ∧
    parse_to_code_only (some "AFE F1 F2") = some "F2" := by
  have hempty : parse_to_code_only (some "") = none := by
    rw [parse_some_eq]
    have h0 : "".data = ([] : List Char) := rfl
    rw [h0]
    simp [wordRuns]
  refine ⟨rfl, hempty, parse_some_eq, ?_⟩
  rw [parse_some_eq]
  have hdata : "AFE F1 F2".data.map Char.toUpper =
      ['A', 'F', 'E', ' ', 'F', '1', ' ', 'F', '2'] := rfl
  rw [hdata]
  simp [wordRuns, isWordChar, isFToken]

/-- **C3** counterexample: on the whitespace-only input `" "`,
`normalize_user_input_code` returns the string `""`, but applied to that
result it returns `None`: `normalize(normalize(" ")) = None ≠ some "" =
normalize(" ")`, refuting idempotence as stated. -/
theorem normalize_blank_breaks_idempotence :
    normalize_user_input_code " " = some "" ∧ normalize_user_input_code "" = none := by
  exact ⟨rfl, rfl⟩

/-- **C3** (amended): normalization is idempotent on every input whose
normalization result is non-empty: if `normalize_user_input_code s = some t`
and `t ≠ ""`, then `normalize_user_input_code t = some t`.  (The only failures
of idempotence are whitespace-only non-empty inputs, whose result is `""`, on
which `normalize_user_input_code` returns `None`.) -/
theorem normalize_idempotent_on_nonempty (s t : String)
    (h : normalize_user_input_code s = some t) (hne : t ≠ "") :
    normalize_user_input_code t = some t := by
  simp only [normalize_user_input_code] at h
  by_cases hse : s.data.isEmpty = true
  · rw [if_pos hse] at h; cases h
  · rw [if_neg hse] at h
    cases hp : parse_to_code_only (some (pyUpper (pyStrip s))) with
    | some code =>
      rw [hp] at h
      have htok := parse_isFToken _ _ hp
      have hcne : code.data.isEmpty = false := by
        obtain ⟨rest, hu, _, _⟩ := isFToken_decomp code.data htok
        rw [hu]; rfl
      have h2 : (if code.data.isEmpty = true then
          (if pyIsDigit (pyUpper (pyStrip s)) = true then
            some (⟨'F' :: (pyUpper (pyStrip s)).data⟩ : String)
          else some (pyUpper (pyStrip s)))
        else some code) = some t := h
      rw [hcne] at h2
      simp only [Bool.false_eq_true, if_false, Option.some_inj] at h2
      rw [← h2]
      exact normalize_F_token code htok
    | none =>
      rw [hp] at h
      have h2 : (if pyIsDigit (pyUpper (pyStrip s)) = true then
          some (⟨'F' :: (pyUpper (pyStrip s)).data⟩ : String)
        else some (pyUpper (pyStrip s))) = some t := h
      by_cases hdig : pyIsDigit (pyUpper (pyStrip s)) = true
      · rw [if_pos hdig] at h2
        simp only [Option.some_inj] at h2
        simp only [pyIsDigit, Bool.and_eq_true] at hdig
        have htok : isFToken t.data = true := by
          rw [← h2, isFToken_cons]
          simp [hdig.1, hdig.2]
        exact normalize_F_token t htok
      · rw [if_neg hdig] at h2
        simp only [Option.some_inj] at h2
        have hdig2 : pyIsDigit (pyUpper (pyStrip s)) = false := by
          revert hdig; cases pyIsDigit (pyUpper (pyStrip s)) <;> simp
        have hsu : pyStrip (pyUpper (pyStrip s)) = pyUpper (pyStrip s) := by
          rw [pyStrip_pyUpper, pyStrip_pyStrip]
        have huu : pyUpper (pyUpper (pyStrip s)) = pyUpper (pyStrip s) :=
          pyUpper_pyUpper (pyStrip s)
        have hdne : (pyUpper (pyStrip s)).data.isEmpty = false := by
          cases hdd : (pyUpper (pyStrip s)).data with
          | nil =>
            exfalso
            apply hne
            rw [← h2]
            apply String.ext
            rw [hdd]
          | cons a l => rfl
        rw [← h2]
        simp only [normalize_user_input_code, hsu, huu, hp, hdne, hdig2]
        simp

/-- **C4** (code bug): the docstring of `normalize_user_input_code` promises
`'  f 91' -> 'F91'` (and the spec says whitespace is collapsed and a missing
separator inserted between the prefix and the number), but the code only
strips the ends: `"  f 91"` normalizes to `"F 91"`, not `"F91"`.  The other
two documented alias forms do work: `"F91"` and `"91"` normalize to `"F91"`. -/
theorem normalize_does_not_collapse_inner_whitespace :
    normalize_user_input_code "  f 91" = some "F 91" ∧
    normalize_user_input_code "F91" = some "F91" ∧
    normalize_user_input_code "91" = some "F91" ∧
    ("F 91" : String) ≠ "F91" := by
  refine ⟨?_, ?_, ?_, by decide⟩
  · simp [normalize_user_input_code, pyStrip, stripL, pyUpper, pyIsDigit,
      parse_to_code_only, findF, isWordChar, isWordHead]
  · simp [normalize_user_input_code, pyStrip, stripL, pyUpper, pyIsDigit,
      parse_to_code_only, findF, isWordChar, isWordHead]
  · simp [normalize_user_input_code, pyStrip, stripL, pyUpper, pyIsDigit,
      parse_to_code_only, findF, isWordChar, isWordHead]

theorem normalize_congr (s₁ s₂ : String) (hd : s₁.data.isEmpty = s₂.data.isEmpty)
    (ht : pyUpper (pyStrip s₁) = pyUpper (pyStrip s₂)) :
    normalize_user_input_code s₁ = normalize_user_input_code s₂ := by
  simp only [normalize_user_input_code, hd, ht]

/-- **C5**: normalization (and hence lookup through it) is case-insensitive:
for every input string, the lowercase and the uppercase variant normalize to
exactly the same result, so `find_fault` applied to the normalized code gives
the same result for every case variant of the input. -/
theorem normalize_case_insensitive :
    ∀ s : String,
      normalize_user_input_code (pyLower s) = normalize_user_input_code s ∧
      normalize_user_input_code (pyUpper s) = normalize_user_input_code s ∧
      ∀ (faults : FaultsTable) (sel : String),
        Option.map (find_fault faults sel) (normalize_user_input_code (pyLower s)) =
          Option.map (find_fault faults sel) (normalize_user_input_code s) ∧
        Option.map (find_fault faults sel) (normalize_user_input_code (pyUpper s)) =
          Option.map (find_fault faults sel) (normalize_user_input_code s) := by
  intro s
  have h1 : normalize_user_input_code (pyLower s) = normalize_user_input_code s := by
    apply normalize_congr
    · cases hd : s.data <;> simp [pyLower, hd]
    · rw [pyStrip_pyLower, pyUpper_pyLower]
  have h2 : normalize_user_input_code (pyUpper s) = normalize_user_input_code s := by
    apply normalize_congr
    · cases hd : s.data <;> simp [pyUpper, hd]
    · rw [pyStrip_pyUpper, pyUpper_pyUpper]
  exact ⟨h1, h2, fun faults sel => ⟨by rw [h1], by rw [h2]⟩⟩

/-- **C7**: the empty input yields no results and no crash: on `""`,
`normalize_user_input_code` returns `None`, and the submitted handler takes
the "please enter a fault code" branch without performing any lookup (the
embedding is total, so no exception is possible). -/
theorem empty_input_yields_no_results :
    normalize_user_input_code "" = none ∧
    ∀ (faults : FaultsTable) (selected : String),
      submitted faults selected "" = SearchOutcome.errEmpty := by
  exact ⟨rfl, fun faults selected => rfl⟩

/-! ## Claim theorems: `find_fault` -/

/-- **C1**: the primary result of `find_fault` is exactly the record stored
under the code in the selected category's code map when the code is a key
there (`List.lookup code m`), and `none` otherwise, including when the
selected category is not a key of the table. -/
theorem find_fault_primary_exact :
    ∀ (faults : FaultsTable) (sel code : String),
      (∀ m : CodeMap, List.lookup sel faults = some m →
        (find_fault faults sel code).1 = List.lookup code m) ∧
      (List.lookup sel faults = none → (find_fault faults sel code).1 = none) := by
  intro faults sel code
  constructor
  · intro m hm
    simp [find_fault, hm]
  · intro hm
    simp [find_fault, hm]

theorem find_fault_primary_exact_witness :
    (find_fault [("AFE", [("F1", sampleFault)])] "AFE" "F1").1 = some sampleFault ∧
    (find_fault [("AFE", [("F1", sampleFault)])] "Other" "F1").1 = none := by
  constructor
  · rw [(find_fault_primary_exact [("AFE", [("F1", sampleFault)])] "AFE" "F1").1
      [("F1", sampleFault)] (by decide)]
    decide
  · exact (find_fault_primary_exact [("AFE", [("F1", sampleFault)])] "Other" "F1").2
      (by decide)

theorem alts_foldl_eq (code sel : String) (l : FaultsTable) :
    ∀ acc : List Fault,
      l.foldl
        (fun acc et =>
          if et.1 = sel then acc
          else
            match List.lookup code et.2 with
            | some v => acc ++ [v]
            | none => acc)
        acc =
      acc ++ (l.filter (fun et => !(et.1 = sel : Bool))).filterMap
        (fun et => List.lookup code et.2) := by
  induction l with
  | nil => intro acc; simp
  | cons et l ih =>
    intro acc
    by_cases he : et.1 = sel
    · simp [he, ih]
    · cases hl : List.lookup code et.2 with
      | none => simp [he, hl, ih]
      | some v => simp [he, hl, ih]

/-- **C2**: when the code is not a key in the selected category's map (primary
is `none`), the alternates are exactly the records keyed by that code under
every other category, in table order; when it is a key (primary is a record),
the alternates are empty. -/
theorem find_fault_alternates :
    ∀ (faults : FaultsTable) (sel code : String),
      ((find_fault faults sel code).1 = none →
        (find_fault faults sel code).2 =
          (faults.filter (fun et => !(et.1 = sel : Bool))).filterMap
            (fun et => List.lookup code et.2)) ∧
      ((find_fault faults sel code).1.isSome = true →
        (find_fault faults sel code).2 = []) := by
  intro faults sel code
  constructor
  · intro hp
    have hp2 : (List.lookup code ((List.lookup sel faults).getD [])) = none := by
      simpa [find_fault] using hp
    simp [find_fault, hp2, alts_foldl_eq]
  · intro hp
    have hp2 : (List.lookup code ((List.lookup sel faults).getD [])).isSome = true := by
      simpa [find_fault] using hp
    simp [find_fault, hp2]

theorem find_fault_alternates_witness :
    (find_fault [("AFE", []), ("DC-DC", [("F1", sampleFaultDC)])] "AFE" "F1").2 =
      [sampleFaultDC] ∧
    (find_fault [("AFE", [("F1", sampleFault)]), ("DC-DC", [("F1", sampleFaultDC)])]
      "AFE" "F1").2 = [] := by
  constructor
  · rw [(find_fault_alternates [("AFE", []), ("DC-DC", [("F1", sampleFaultDC)])]
      "AFE" "F1").1 (by decide)]
    decide
  · exact (find_fault_alternates
      [("AFE", [("F1", sampleFault)]), ("DC-DC", [("F1", sampleFaultDC)])]
      "AFE" "F1").2 (by decide)

/-! ## Claim theorem: `reset_state` -/

theorem foldDel_eq_filter (p : String → Bool) :
    ∀ (ks : List String) (st : List (String × α)),
      ks.foldl (fun acc k => if p k then acc.filter (fun kv => !(kv.1 = k : Bool)) else acc)
        st =
      st.filter (fun kv => !(p kv.1 && ks.contains kv.1)) := by
  intro ks
  induction ks with
  | nil => intro st; simp
  | cons k ks ih =>
    intro st
    by_cases hk : p k = true
    · simp only [List.foldl_cons, if_pos hk]
      rw [ih, List.filter_filter]
      apply List.filter_congr
      intro kv hkv
      by_cases hek : kv.1 = k
      · simp [hek, hk]
      · simp [hek, Ne.symm hek]
    · have hk2 : p k = false := by revert hk; cases p k <;> simp
      simp only [List.foldl_cons, hk2, Bool.false_eq_true, if_false]
      rw [ih]
      apply List.filter_congr
      intro kv hkv
      by_cases hek : kv.1 = k
      · simp [hek, hk2]
      · simp [hek, Ne.symm hek]

/-- **C10**: `reset_state` deletes exactly the session-state entries whose key
starts with `"fc_"` and leaves every other key with its value, in order,
unchanged: it equals filtering the `fc_`-prefixed entries out of the state. -/
theorem reset_state_deletes_exactly_fc (α : Type) (st : List (String × α)) :
    reset_state st = st.filter (fun kv => !(pyStarts kv.1 "fc_")) := by
  rw [reset_state, foldDel_eq_filter]
  apply List.filter_congr
  intro kv hkv
  have hmem : (st.map Prod.fst).contains kv.1 = true := by
    have h1 : kv.1 ∈ st.map Prod.fst := List.mem_map_of_mem Prod.fst hkv
    simpa using h1
  rw [hmem]
  simp

/-! ## `parse_rows_to_faults` lemmas -/

theorem lookup_append (m l : List (String × β)) (x : String) :
    List.lookup x (m ++ l) = ((List.lookup x m).orElse (fun _ => List.lookup x l)) := by
  induction m with
  | nil => simp
  | cons kv m ih =>
    by_cases hk : x = kv.1
    · simp [List.lookup, hk]
    · have hk2 : (x == kv.1) = false := by
        simp only [beq_eq_false_iff_ne, Ne]
        exact hk
      simp [List.lookup, hk2, ih]

theorem lookup_eq_none_of_not_any (m : CodeMap) (k : String)
    (h : m.any (fun p => (p.1 = k : Bool)) = false) : List.lookup k m = none := by
  induction m with
  | nil => rfl
  | cons kv m ih =>
    rw [List.any_cons, Bool.or_eq_false_iff] at h
    have hk : (k == kv.1) = false := by
      simp only [beq_eq_false_iff_ne, Ne]
      intro he
      rw [← he] at h
      simp at h
    simp [List.lookup, hk, ih h.2]

theorem lookup_map_replace_self (m : CodeMap) (k : String) (v : Fault)
    (h : m.any (fun p => (p.1 = k : Bool)) = true) :
    List.lookup k (m.map (fun p => if p.1 = k then (k, v) else p)) = some v := by
  induction m with
  | nil => simp at h
  | cons kv m ih =>
    rw [List.any_cons, Bool.or_eq_true] at h
    rw [List.map_cons]
    by_cases hk : kv.1 = k
    · rw [if_pos hk]
      simp [List.lookup]
    · rw [if_neg hk]
      have hk2 : (k == kv.1) = false := by
        simp only [beq_eq_false_iff_ne, Ne]
        exact fun he => hk he.symm
      have h2 : m.any (fun p => (p.1 = k : Bool)) = true := by
        rcases h with h | h
        · exact absurd (of_decide_eq_true h) hk
        · exact h
      simp [List.lookup, hk2, ih h2]

theorem lookup_map_replace_ne (m : CodeMap) (k : String) (v : Fault) (x : String)
    (hx : x ≠ k) :
    List.lookup x (m.map (fun p => if p.1 = k then (k, v) else p)) = List.lookup x m := by
  induction m with
  | nil => rfl
  | cons kv m ih =>
    rw [List.map_cons]
    by_cases hk : kv.1 = k
    · rw [if_pos hk]
      have h1 : (x == k) = false := by
        simp only [beq_eq_false_iff_ne, Ne]
        exact hx
      have h2 : (x == kv.1) = false := by rw [hk]; exact h1
      simp [List.lookup, h1, h2, ih]
    · rw [if_neg hk]
      by_cases hvx : x = kv.1
      · simp [List.lookup, hvx]
      · have h2 : (x == kv.1) = false := by
          simp only [beq_eq_false_iff_ne, Ne]
          exact hvx
        simp [List.lookup, h2, ih]

theorem lookup_dictInsert (m : CodeMap) (k : String) (v : Fault) (x : String) :
    List.lookup x (dictInsert m k v) = if x = k then some v else List.lookup x m := by
  rw [dictInsert]
  by_cases hany : m.any (fun p => (p.1 = k : Bool)) = true
  · rw [if_pos hany]
    by_cases hx : x = k
    · rw [if_pos hx, hx]
      exact lookup_map_replace_self m k v hany
    · rw [if_neg hx]
      exact lookup_map_replace_ne m k v x hx
  · have hany2 : m.any (fun p => (p.1 = k : Bool)) = false := by
      revert hany; cases m.any (fun p => (p.1 = k : Bool)) <;> simp
    rw [if_neg (by simp [hany2])]
    rw [lookup_append]
    by_cases hx : x = k
    · rw [if_pos hx, hx, lookup_eq_none_of_not_any m k hany2]
      simp [List.lookup]
    · rw [if_neg hx]
      cases hm : List.lookup x m with
      | some w => simp
      | none =>
        have hxk : (x == k) = false := by
          simp only [beq_eq_false_iff_ne, Ne]
          exact hx
        simp [List.lookup, hxk]

theorem lookup_map_update (f : FaultsTable) (e c : String) (v : Fault) (x : String) :
    List.lookup x (f.map (fun et => if et.1 = e then (et.1, dictInsert et.2 c v) else et)) =
      Option.map (fun m => if x = e then dictInsert m c v else m) (List.lookup x f) := by
  induction f with
  | nil => rfl
  | cons et f ih =>
    rw [List.map_cons]
    by_cases hex : x = et.1
    · by_cases he : et.1 = e
      · rw [if_pos he]
        have hxe : x = e := by rw [hex, he]
        simp [List.lookup, hex, hxe, he]
      · rw [if_neg he]
        have hxe : ¬(x = e) := by rw [hex]; exact he
        simp [List.lookup, hex, hxe, he]
    · have hex2 : (x == et.1) = false := by
        simp only [beq_eq_false_iff_ne, Ne]
        exact hex
      by_cases he : et.1 = e
      · rw [if_pos he]
        simp only [List.lookup, hex2]
        exact ih
      · rw [if_neg he]
        simp only [List.lookup, hex2]
        exact ih

theorem lookup_updateTable (f : FaultsTable) (e c : String) (v : Fault) (x : String) :
    List.lookup x (updateTable f e c v) =
      Option.map (fun m => if x = e then dictInsert m c v else m) (List.lookup x f) := by
  rw [updateTable]
  exact lookup_map_update f e c v x

theorem dictInsert_mem (m : CodeMap) (k : String) (v : Fault) (c : String) (w : Fault)
    (h : (c, w) ∈ dictInsert m k v) : (c, w) ∈ m ∨ (c = k ∧ w = v) := by
  rw [dictInsert] at h
  split at h
  · obtain ⟨p, hp, hpe⟩ := List.mem_map.mp h
    by_cases hpk : p.1 = k
    · rw [if_pos hpk] at hpe
      right
      have h1 : k = c := congrArg Prod.fst hpe
      have h2 : v = w := congrArg Prod.snd hpe
      exact ⟨h1.symm, h2.symm⟩
    · rw [if_neg hpk] at hpe
      left
      rw [← hpe]
      exact hp
  · rcases List.mem_append.mp h with h | h
    · left; exact h
    · right
      have h2 := List.mem_singleton.mp h
      have h3 : c = k := congrArg Prod.fst h2
      have h4 : w = v := congrArg Prod.snd h2
      exact ⟨h3, h4⟩

theorem equip_map_mem (x y : String) (h : List.lookup x EQUIP_NAME_MAP = some y) :
    y ∈ (["AFE", "DC-DC", "Grid"] : List String) := by
  simp only [EQUIP_NAME_MAP, List.lookup] at h
  split at h
  · cases h; decide
  · split at h
    · cases h; decide
    · split at h
      · cases h; decide
      · cases h

theorem rowWrite_fields (r : Row) (e c : String) (v : Fault)
    (h : rowWrite r = some (e, c, v)) :
    v.equipment = e ∧ v.code = c ∧ isFToken c.data = true ∧
      e ∈ (["AFE", "DC-DC", "Grid"] : List String) := by
  simp only [rowWrite] at h
  split at h
  · -- formatted-schema branch
    split at h
    · next ui_equip code hlk hpc =>
      split at h
      · cases h
      · have h2 := Option.some.inj h
        have he : ui_equip = e := congrArg (fun t => t.1) h2
        have hc : code = c := congrArg (fun t => t.2.1) h2
        have hv := congrArg (fun t => t.2.2) h2
        simp only at he hc hv
        rw [← hv, ← he, ← hc]
        refine ⟨rfl, rfl, parse_isFToken _ _ hpc, equip_map_mem _ _ hlk⟩
    · cases h
  · -- original-schema branch
    split at h
    · split at h
      · cases h
      · next code hpc =>
        split at h
        · cases h
        · split at h
          · have h2 := Option.some.inj h
            have he : "AFE" = e := congrArg (fun t => t.1) h2
            have hc : code = c := congrArg (fun t => t.2.1) h2
            have hv := congrArg (fun t => t.2.2) h2
            simp only at he hc hv
            rw [← hv, ← he, ← hc]
            refine ⟨rfl, rfl, parse_isFToken _ _ hpc, by decide⟩
          · split at h
            · have h2 := Option.some.inj h
              have he : "DC-DC" = e := congrArg (fun t => t.1) h2
              have hc : code = c := congrArg (fun t => t.2.1) h2
              have hv := congrArg (fun t => t.2.2) h2
              simp only at he hc hv
              rw [← hv, ← he, ← hc]
              refine ⟨rfl, rfl, parse_isFToken _ _ hpc, by decide⟩
            · split at h
              · have h2 := Option.some.inj h
                have he : "Grid" = e := congrArg (fun t => t.1) h2
                have hc : code = c := congrArg (fun t => t.2.1) h2
                have hv := congrArg (fun t => t.2.2) h2
                simp only at he hc hv
                rw [← hv, ← he, ← hc]
                refine ⟨rfl, rfl, parse_isFToken _ _ hpc, by decide⟩
              · cases h
    · cases h

theorem updateTable_keys (f : FaultsTable) (e c : String) (v : Fault) :
    (updateTable f e c v).map Prod.fst = f.map Prod.fst := by
  rw [updateTable, List.map_map]
  apply List.map_congr_left
  intro et _
  by_cases he : et.1 = e <;> simp [he]

theorem rowStep_keys (f : FaultsTable) (r : Row) :
    (rowStep f r).map Prod.fst = f.map Prod.fst := by
  rw [rowStep]
  cases hrw : rowWrite r with
  | none => rfl
  | some ecv => exact updateTable_keys f ecv.1 ecv.2.1 ecv.2.2

theorem foldl_rowStep_keys (rows : List Row) :
    ∀ f : FaultsTable, (rows.foldl rowStep f).map Prod.fst = f.map Prod.fst := by
  induction rows with
  | nil => intro f; rfl
  | cons r rows ih => intro f; rw [List.foldl_cons, ih, rowStep_keys]

theorem lookup_isSome_of_mem_keys (f : FaultsTable) (e : String)
    (h : e ∈ f.map Prod.fst) : ∃ m, List.lookup e f = some m := by
  induction f with
  | nil => simp at h
  | cons et f ih =>
    rw [List.map_cons] at h
    rcases List.mem_cons.mp h with he | he
    · refine ⟨et.2, ?_⟩
      simp [List.lookup, he]
    · by_cases hee : e = et.1
      · exact ⟨et.2, by simp [List.lookup, hee]⟩
      · have he2 : (e == et.1) = false := by
          simp only [beq_eq_false_iff_ne, Ne]
          exact hee
        obtain ⟨m, hm⟩ := ih he
        exact ⟨m, by simp [List.lookup, he2, hm]⟩

theorem rowStep_lookup_preserved (f : FaultsTable) (r : Row) (e c : String)
    (hw : ∀ v', rowWrite r ≠ some (e, c, v')) :
    List.lookup c ((List.lookup e (rowStep f r)).getD []) =
      List.lookup c ((List.lookup e f).getD []) := by
  rw [rowStep]
  cases hrw : rowWrite r with
  | none => rfl
  | some ecv =>
    obtain ⟨e', c', v'⟩ := ecv
    rw [lookup_updateTable]
    cases hl : List.lookup e f with
    | none => rfl
    | some m =>
      by_cases hee : e = e'
      · have hcc : ¬(c = c') := by
          intro hc
          exact hw v' (by rw [hrw, hee, hc])
        simp [hee, hl, lookup_dictInsert, hcc]
      · simp [hee, hl]

theorem foldl_preserves_entry (e c : String) (v : Fault) :
    ∀ (rows : List Row) (f : FaultsTable),
      List.lookup c ((List.lookup e f).getD []) = some v →
      (∀ r' ∈ rows, ∀ v', rowWrite r' ≠ some (e, c, v')) →
      List.lookup c ((List.lookup e (rows.foldl rowStep f)).getD []) = some v := by
  intro rows
  induction rows with
  | nil => intro f h _; exact h
  | cons r rows ih =>
    intro f h hw
    rw [List.foldl_cons]
    apply ih
    · rw [rowStep_lookup_preserved f r e c (fun v' => hw r (by simp) v')]
      exact h
    · intro r' hr'
      exact hw r' (by simp [hr'])

theorem rowStep_lookup_write (f : FaultsTable) (r : Row) (e c : String) (v : Fault)
    (hrw : rowWrite r = some (e, c, v)) (m : CodeMap) (hl : List.lookup e f = some m) :
    List.lookup c ((List.lookup e (rowStep f r)).getD []) = some v := by
  rw [rowStep, hrw, lookup_updateTable, hl]
  simp [lookup_dictInsert]

theorem foldl_rowStep_good (rows : List Row) :
    ∀ f : FaultsTable,
      (∀ e m, (e, m) ∈ f → ∀ c v, (c, v) ∈ m →
        v.equipment = e ∧ v.code = c ∧ isFToken c.data = true) →
      ∀ e m, (e, m) ∈ rows.foldl rowStep f → ∀ c v, (c, v) ∈ m →
        v.equipment = e ∧ v.code = c ∧ isFToken c.data = true := by
  induction rows with
  | nil => intro f hf; exact hf
  | cons r rows ih =>
    intro f hf
    rw [List.foldl_cons]
    apply ih
    intro e m hm c v hv
    rw [rowStep] at hm
    cases hrw : rowWrite r with
    | none =>
      rw [hrw] at hm
      exact hf e m hm c v hv
    | some ecv =>
      obtain ⟨e', c', v'⟩ := ecv
      rw [hrw] at hm
      have hm2 : (e, m) ∈ updateTable f e' c' v' := hm
      rw [updateTable] at hm2
      obtain ⟨et, het, hete⟩ := List.mem_map.mp hm2
      by_cases he : et.1 = e'
      · rw [if_pos he] at hete
        have he1 : et.1 = e := congrArg Prod.fst hete
        have he2 : dictInsert et.2 c' v' = m := congrArg Prod.snd hete
        rw [← he2] at hv
        rcases dictInsert_mem et.2 c' v' c v hv with hin | ⟨hc, hvv⟩
        · apply hf e et.2 _ c v hin
          rw [← he1]
          have : (et.1, et.2) = et := rfl
          rw [this]
          exact het
        · obtain ⟨hq1, hq2, hq3, _⟩ := rowWrite_fields r e' c' v' hrw
          subst hc hvv
          refine ⟨?_, hq2, hq3⟩
          rw [hq1, ← he, he1]
      · rw [if_neg he] at hete
        rw [hete] at het
        exact hf e m het c v hv

theorem initFaults_good :
    ∀ e m, (e, m) ∈ initFaults → ∀ c v, (c, v) ∈ m →
      v.equipment = e ∧ v.code = c ∧ isFToken c.data = true := by
  intro e m hm c v hv
  simp only [initFaults, List.mem_cons, List.mem_singleton] at hm
  rcases hm with h | h | h | h
  · injection h with h1 h2
    rw [h2] at hv
    simp at hv
  · injection h with h1 h2
    rw [h2] at hv
    simp at hv
  · injection h with h1 h2
    rw [h2] at hv
    simp at hv
  · simp at h

/-! ## Claim theorems: `parse_rows_to_faults`, suggestions, idempotence witness -/

/-- **C8**: for every row list, the table built by `parse_rows_to_faults` has
top-level keys exactly `AFE`, `DC-DC`, `Grid`; every record stored under
category key `e` and code key `c` has its `equipment` field equal to `e` and
its `code` field equal to `c`, with `c` of the form `F` followed by one or
more digits; and when several rows map to the same `(category, code)` pair,
the last such row's record is the one stored (appending rows that do not write
to the pair leaves the last writer's record in place). -/
theorem parse_rows_to_faults_invariant :
    (∀ rows : List Row,
      (parse_rows_to_faults rows).map Prod.fst = ["AFE", "DC-DC", "Grid"]) ∧
    (∀ (rows : List Row) (e : String) (m : CodeMap),
      (e, m) ∈ parse_rows_to_faults rows →
      ∀ (c : String) (v : Fault), (c, v) ∈ m →
        v.equipment = e ∧ v.code = c ∧ isFToken c.data = true) ∧
    (∀ (rows₁ : List Row) (r : Row) (rows₂ : List Row) (e c : String) (v : Fault),
      rowWrite r = some (e, c, v) →
      (∀ r' ∈ rows₂, ∀ v', rowWrite r' ≠ some (e, c, v')) →
      List.lookup c
        ((List.lookup e (parse_rows_to_faults (rows₁ ++ r :: rows₂))).getD []) =
        some v) := by
  refine ⟨?_, ?_, ?_⟩
  · intro rows
    rw [parse_rows_to_faults, foldl_rowStep_keys]
    rfl
  · intro rows
    exact foldl_rowStep_good rows initFaults initFaults_good
  · intro rows₁ r rows₂ e c v hrw hw
    rw [parse_rows_to_faults, List.foldl_append, List.foldl_cons]
    apply foldl_preserves_entry e c v rows₂ _ _ hw
    have hkeys : (rows₁.foldl rowStep initFaults).map Prod.fst =
        ["AFE", "DC-DC", "Grid"] := by
      rw [foldl_rowStep_keys]; rfl
    have hmem : e ∈ (rows₁.foldl rowStep initFaults).map Prod.fst := by
      rw [hkeys]
      exact (rowWrite_fields r e c v hrw).2.2.2
    obtain ⟨m, hm⟩ := lookup_isSome_of_mem_keys _ e hmem
    exact rowStep_lookup_write _ r e c v hrw m hm

theorem parse_rows_to_faults_invariant_witness :
    List.lookup "F7"
      ((List.lookup "AFE" (parse_rows_to_faults [sampleRow])).getD []) =
      some sampleEntry7 := by
  have h := parse_rows_to_faults_invariant.2.2 [] sampleRow [] "AFE" "F7" sampleEntry7
    (by simp [rowWrite, sampleRow, pyStrip, stripL, pyUpper, EQUIP_NAME_MAP,
      parse_to_code_only, findF, isWordChar, isWordHead, sampleEntry7, List.lookup])
    (by intro r' hr'; simp at hr')
  simpa using h

/-- **C6** (modelled from the spec; `src/app.py` has no suggestion scan): the
"did you mean" suggestions are capped at 10, exclude the exact match already
returned, and each suggestion either matches the query textually (substring or
prefix over the candidate pool, optionally restricted by selected category) or
— in the fallback taken when no textual suggestion exists — on the bare
numeric fault-number token. -/
theorem suggest_codes_spec :
    ∀ (faults : FaultsTable) (restrict : Option String) (query : String),
      (suggest_codes faults restrict query).length ≤ 10 ∧
      ∀ c ∈ suggest_codes faults restrict query,
        c ≠ query ∧
          (hasSegment query.data c.data || query.data.isPrefixOf c.data ||
            (numTok c = numTok query : Bool)) = true := by
  intro faults restrict query
  constructor
  · simp only [suggest_codes]
    split
    · exact List.length_take_le 10 _
    · exact List.length_take_le 10 _
  · intro c hc
    simp only [suggest_codes] at hc
    split at hc
    · have h1 := List.mem_filter.mp (List.mem_of_mem_take hc)
      have h2 := h1.2
      rw [Bool.and_eq_true] at h2
      constructor
      · intro he
        rw [he] at h2
        simp at h2
      · simp only [Bool.or_eq_true]
        right
        exact h2.2
    · have h1 := List.mem_filter.mp (List.mem_of_mem_take hc)
      have h2 := h1.2
      rw [Bool.and_eq_true] at h2
      constructor
      · intro he
        rw [he] at h2
        simp at h2
      · simp only [Bool.or_eq_true]
        left
        rw [← Bool.or_eq_true]
        exact h2.2

theorem suggest_codes_spec_witness :
    ("F12" : String) ≠ "F1" ∧
      (hasSegment "F1".data "F12".data || "F1".data.isPrefixOf "F12".data ||
        (numTok "F12" = numTok "F1" : Bool)) = true :=
  (suggest_codes_spec [("AFE", [("F12", sampleFault)])] none "F1").2 "F12" (by decide)

theorem normalize_idempotent_on_nonempty_witness :
    normalize_user_input_code "F91" = some "F91" :=
  normalize_idempotent_on_nonempty "91" "F91"
    (by simp [normalize_user_input_code, pyStrip, stripL, pyUpper, pyIsDigit,
      parse_to_code_only, findF, isWordChar, isWordHead])
    (by decide)
